import Mathlib

/-!
Shallow embedding of the console Blackjack program (src/BlackJack.py).

Cards, the deck (shoe), hands and the round controller are translated
directly from the source.  Money amounts (Python floats) are modelled as
rationals; the random shuffle is an explicit function parameter, assumed
length-preserving where a claim needs it; console input is modelled as a
list of pending inputs (bets, actions), and loops that read input recurse
structurally on that list.  Python `list.pop()` on an empty list raises,
so drawing from the deck returns an `Option`.
-/

namespace BlackJack

/-- Card suits, as in the `Suit` enum of the source. -/
inductive Suit where
  | hearts
  | diamonds
  | clubs
  | spades
deriving DecidableEq, Repr

/-- Card ranks, as in the `Rank` enum of the source. -/
inductive Rank where
  | ace
  | two
  | three
  | four
  | five
  | six
  | seven
  | eight
  | nine
  | ten
  | jack
  | queen
  | king
deriving DecidableEq, Repr

/-- Numeric value carried by each rank (Ace fixed at 11 here). -/
def Rank.value : Rank → Nat
  | .ace => 11
  | .two => 2
  | .three => 3
  | .four => 4
  | .five => 5
  | .six => 6
  | .seven => 7
  | .eight => 8
  | .nine => 9
  | .ten => 10
  | .jack => 10
  | .queen => 10
  | .king => 10

/-- A single playing card: a suit together with a rank. -/
structure Card where
  suit : Suit
  rank : Rank
deriving DecidableEq, Repr

/-- Card.get_value of the source: the rank's fixed numeric value. -/
def Card.get_value (c : Card) : Nat := c.rank.value

/-- All four suits, in the iteration order of the `Suit` enum. -/
def allSuits : List Suit := [.hearts, .diamonds, .clubs, .spades]

/-- All thirteen ranks, in the iteration order of the `Rank` enum. -/
def allRanks : List Rank :=
  [.ace, .two, .three, .four, .five, .six, .seven, .eight, .nine, .ten,
   .jack, .queen, .king]

/-- One full 52-card set, built suit-major exactly as `Deck.reset` does. -/
def fullSet : List Card :=
  allSuits.flatMap fun s => allRanks.map fun r => ⟨s, r⟩

/-- The deck (shoe): its card sequence and the configured number of decks. -/
structure Deck where
  cards : List Card
  num_decks : Nat
deriving DecidableEq, Repr

/-- Deck.reset of the source: rebuild the sequence as `num_decks` full
52-card sets and shuffle.  The shuffle is passed in explicitly. -/
def Deck.reset (shuffle : List Card → List Card) (d : Deck) : Deck :=
  { d with cards := shuffle ((List.replicate d.num_decks fullSet).flatten) }

/-- Python `list.pop()`: remove and return the last element, failing on an
empty list. -/
def popLast (l : List Card) : Option (Card × List Card) :=
  match l.getLast? with
  | none => none
  | some c => some (c, l.dropLast)

/-- Deck.deal_card of the source: reshuffle first when fewer than 10 cards
remain, then pop a card from the end of the sequence. -/
def Deck.deal_card (shuffle : List Card → List Card) (d : Deck) :
    Option (Card × Deck) :=
  let d' := if d.cards.length < 10 then d.reset shuffle else d
  (popLast d'.cards).map fun p => (p.1, { d' with cards := p.2 })

/-- A hand of cards. -/
structure Hand where
  cards : List Card
deriving DecidableEq, Repr

/-- Hand.add_card of the source: append to the end. -/
def Hand.add_card (h : Hand) (c : Card) : Hand := ⟨h.cards ++ [c]⟩

/-- The ace-adjustment while-loop of Hand.get_value: while the value
exceeds 21 and aces remain, subtract 10 and use up one ace. -/
def adjustAces : Nat → Nat → Nat
  | value, 0 => value
  | value, aces + 1 => if 21 < value then adjustAces (value - 10) aces else value

/-- Hand.get_value of the source: sum the card values, count the aces,
then run the adjustment loop. -/
def Hand.get_value (h : Hand) : Nat :=
  adjustAces ((h.cards.map Card.get_value).sum)
    ((h.cards.filter fun c => c.rank == Rank.ace).length)

/-- Hand.is_blackjack of the source: exactly two cards totalling 21. -/
def Hand.is_blackjack (h : Hand) : Bool :=
  h.cards.length == 2 && h.get_value == 21

/-- Hand.is_bust of the source: value exceeds 21. -/
def Hand.is_bust (h : Hand) : Bool := 21 < h.get_value

/-- Number of aces in a hand, as counted by Hand.get_value. -/
def countAces (h : Hand) : Nat :=
  (h.cards.filter fun c => c.rank == Rank.ace).length

/-- Sum of the base values of the non-ace cards of a hand. -/
def nonAceSum (h : Hand) : Nat :=
  ((h.cards.filter fun c => !(c.rank == Rank.ace)).map Card.get_value).sum

/-- Hard value of a card: every ace counts 1, everything else its value. -/
def hardValue (c : Card) : Nat :=
  if c.rank = Rank.ace then 1 else c.get_value

/-- Hard total of a hand: the sum with every ace demoted to 1.  It is a
lower bound of Hand.get_value and grows by at least 1 per card. -/
def hardTotal (h : Hand) : Nat := (h.cards.map hardValue).sum

/-- The mutable state of BlackjackGame: the shoe, the balance, the two
hands and the current bet.  Money is modelled as rationals. -/
structure GameState where
  deck : Deck
  player_balance : ℚ
  player_hand : Hand
  dealer_hand : Hand
  current_bet : ℚ
deriving DecidableEq, Repr

/-- One console input during the player turn: the upper-cased letters H,
S, D of the source, or any unrecognized input. -/
inductive Action where
  | hit
  | stand
  | double
  | other
deriving DecidableEq, Repr

/-- BlackjackGame.place_bet: read bets until one satisfies
0 < bet and bet less than or equal to the balance, then record it and
debit it.  Console input is the list of pending entries, a `none` being a
non-numeric entry (ValueError).  Returns the accepted bet and the new
balance, or `none` when input is exhausted. -/
def place_bet (balance : ℚ) : List (Option ℚ) → Option (ℚ × ℚ)
  | [] => none
  | none :: rest => place_bet balance rest
  | some bet :: rest =>
    if bet ≤ 0 ∨ balance < bet then place_bet balance rest
    else some (bet, balance - bet)

/-- BlackjackGame.deal_initial_hands: fresh hands, then two rounds of one
card to the player followed by one card to the dealer. -/
def deal_initial_hands (shuffle : List Card → List Card) (s : GameState) :
    Option GameState :=
  match s.deck.deal_card shuffle with
  | none => none
  | some (c1, d1) =>
    match d1.deal_card shuffle with
    | none => none
    | some (c2, d2) =>
      match d2.deal_card shuffle with
      | none => none
      | some (c3, d3) =>
        match d3.deal_card shuffle with
        | none => none
        | some (c4, d4) =>
          some { s with deck := d4,
                        player_hand := ((Hand.mk []).add_card c1).add_card c3,
                        dealer_hand := ((Hand.mk []).add_card c2).add_card c4 }

/-- BlackjackGame.check_initial_blackjack: the natural-blackjack check run
right after the initial deal.  Returns whether the round ends, and the
updated state. -/
def check_initial_blackjack (s : GameState) : Bool × GameState :=
  if s.player_hand.is_blackjack && s.dealer_hand.is_blackjack then
    (true, { s with player_balance := s.player_balance + s.current_bet })
  else if s.player_hand.is_blackjack then
    (true, { s with player_balance := s.player_balance + s.current_bet * (5/2) })
  else if s.dealer_hand.is_blackjack then
    (true, s)
  else
    (false, s)

/-- BlackjackGame.player_turn: loop that checks for bust, then reads an
action.  Hit draws one card and loops; Stand returns; Double Down checks
eligibility, debits the bet, doubles it, draws one card and returns, and
re-prompts when ineligible; unrecognized input re-prompts.  Returns
`none` when input is exhausted or a draw fails. -/
def player_turn (shuffle : List Card → List Card) :
    List Action → GameState → Option GameState
  | actions, s =>
    if s.player_hand.is_bust then some s
    else
      match actions with
      | [] => none
      | Action.hit :: rest =>
        match s.deck.deal_card shuffle with
        | none => none
        | some (c, d) =>
          player_turn shuffle rest
            { s with deck := d, player_hand := s.player_hand.add_card c }
      | Action.stand :: _ => some s
      | Action.double :: rest =>
        if s.player_hand.cards.length = 2 ∧ s.current_bet ≤ s.player_balance then
          match s.deck.deal_card shuffle with
          | none => none
          | some (c, d) =>
            some { s with deck := d,
                          player_balance := s.player_balance - s.current_bet,
                          current_bet := s.current_bet * 2,
                          player_hand := s.player_hand.add_card c }
        else player_turn shuffle rest s
      | Action.other :: rest => player_turn shuffle rest s

/-- BlackjackGame.dealer_turn: draw while the dealer hand's value is
below 17.  The loop is given fuel; running out of fuel yields `none`,
and the termination theorem shows fuel 17 always suffices. -/
def dealer_turn (shuffle : List Card → List Card) :
    Nat → GameState → Option GameState
  | 0, s => if s.dealer_hand.get_value < 17 then none else some s
  | fuel + 1, s =>
    if s.dealer_hand.get_value < 17 then
      match s.deck.deal_card shuffle with
      | none => none
      | some (c, d) =>
        dealer_turn shuffle fuel
          { s with deck := d, dealer_hand := s.dealer_hand.add_card c }
    else some s

/-- BlackjackGame.determine_winner: settle the round into the balance. -/
def determine_winner (s : GameState) : GameState :=
  if s.player_hand.is_bust then s
  else if s.dealer_hand.is_bust then
    { s with player_balance := s.player_balance + s.current_bet * 2 }
  else if s.dealer_hand.get_value < s.player_hand.get_value then
    { s with player_balance := s.player_balance + s.current_bet * 2 }
  else if s.player_hand.get_value < s.dealer_hand.get_value then
    s
  else
    { s with player_balance := s.player_balance + s.current_bet }

/-- Tail of BlackjackGame.play_hand after the player turn: the dealer
plays unless the player is bust, then the round is settled. -/
def after_player (shuffle : List Card → List Card) (fuel : Nat)
    (s : GameState) : Option GameState :=
  (if s.player_hand.is_bust then some s else dealer_turn shuffle fuel s).map
    determine_winner

/-- BlackjackGame.play_hand: bet placement, initial deal, the natural
blackjack check (ending the round when it fires), then player turn,
dealer turn and settlement. -/
def play_hand (shuffle : List Card → List Card) (bets : List (Option ℚ))
    (actions : List Action) (fuel : Nat) (s : GameState) : Option GameState :=
  match place_bet s.player_balance bets with
  | none => none
  | some (bet, bal) =>
    match deal_initial_hands shuffle
        { s with player_balance := bal, current_bet := bet } with
    | none => none
    | some s1 =>
      match check_initial_blackjack s1 with
      | (done, s2) =>
        if done then some s2
        else
          match player_turn shuffle actions s2 with
          | none => none
          | some s3 => after_player shuffle fuel s3

/-- Iterated Deck.deal_card, for statements about any sequence of
draws. -/
def dealMany (shuffle : List Card → List Card) : Nat → Deck → Option Deck
  | 0, d => some d
  | n + 1, d =>
    match d.deal_card shuffle with
    | none => none
    | some (_, d') => dealMany shuffle n d'

/-! Helper lemmas about the ace-adjustment loop and hand values. -/

theorem adjustAces_of_le (a v : Nat) (h : v ≤ 21) : adjustAces v a = v := by
  cases a with
  | zero => rfl
  | succ a => unfold adjustAces; rw [if_neg (by omega)]

theorem adjustAces_le (a v : Nat) : adjustAces v a ≤ v := by
  induction a generalizing v with
  | zero => exact Nat.le_refl v
  | succ a ih =>
    unfold adjustAces
    split
    · exact Nat.le_trans (ih (v - 10)) (Nat.sub_le v 10)
    · exact Nat.le_refl v

theorem adjustAces_one (v : Nat) :
    adjustAces v 1 = if 21 < v then v - 10 else v := rfl

theorem sub_le_adjustAces (a v : Nat) : v - 10 * a ≤ adjustAces v a := by
  induction a generalizing v with
  | zero => simp [adjustAces]
  | succ a ih =>
    unfold adjustAces
    split
    · exact Nat.le_trans (by omega) (ih (v - 10))
    · exact Nat.sub_le _ _

theorem sum_value_eq_nonAce_add (l : List Card) :
    (l.map Card.get_value).sum =
      ((l.filter fun c => !(c.rank == Rank.ace)).map Card.get_value).sum +
        11 * (l.filter fun c => c.rank == Rank.ace).length := by
  induction l with
  | nil => rfl
  | cons c l ih =>
    by_cases hc : c.rank = Rank.ace
    · have hv : c.get_value = 11 := by
        simp [Card.get_value, hc, Rank.value]
      simp [List.filter_cons, hc, hv, ih]
      ring
    · simp [List.filter_cons, hc, ih]
      ring

theorem sum_value_eq_hard_add (l : List Card) :
    (l.map Card.get_value).sum =
      (l.map hardValue).sum + 10 * (l.filter fun c => c.rank == Rank.ace).length := by
  induction l with
  | nil => rfl
  | cons c l ih =>
    by_cases hc : c.rank = Rank.ace
    · have hv : c.get_value = 11 := by
        simp [Card.get_value, hc, Rank.value]
      simp [List.filter_cons, hc, hv, hardValue, ih]
      ring
    · simp [List.filter_cons, hc, hardValue, ih]
      ring

theorem get_value_eq_adjust (h : Hand) :
    h.get_value = adjustAces (nonAceSum h + 11 * countAces h) (countAces h) := by
  rw [Hand.get_value, sum_value_eq_nonAce_add]
  rfl

theorem hardTotal_le_get_value (h : Hand) : hardTotal h ≤ h.get_value := by
  rw [Hand.get_value, sum_value_eq_hard_add]
  calc hardTotal h = (hardTotal h + 10 * countAces h) - 10 * countAces h := by omega
    _ ≤ _ := sub_le_adjustAces _ _

theorem hardTotal_add_card (h : Hand) (c : Card) :
    hardTotal (h.add_card c) = hardTotal h + hardValue c := by
  simp [hardTotal, Hand.add_card]

theorem one_le_hardValue (c : Card) : 1 ≤ hardValue c := by
  rw [hardValue]
  split
  · exact Nat.le_refl 1
  · cases hr : c.rank <;> simp [Card.get_value, hr, Rank.value]

/-! Claim theorems about hand valuation. -/

/-- C1: Hand.get_value is the sum of the cards' base values reduced by 10
once per ace while the total exceeds 21 and un-demoted aces remain; a
hand with exactly one ace plus non-ace cards summing to s is worth s + 11
when that does not exceed 21 and s + 1 otherwise; a hand of exactly two
aces is worth 12. -/
theorem hand_get_value_spec :
    (∀ h : Hand, h.get_value =
      adjustAces (nonAceSum h + 11 * countAces h) (countAces h)) ∧
    (∀ (h : Hand) (s : Nat), countAces h = 1 → nonAceSum h = s →
      h.get_value = if s + 11 ≤ 21 then s + 11 else s + 1) ∧
    (∀ (h : Hand) (c1 c2 : Card), h.cards = [c1, c2] → c1.rank = Rank.ace →
      c2.rank = Rank.ace → h.get_value = 12) := by
  refine ⟨get_value_eq_adjust, ?_, ?_⟩
  · intro h s h1 hs
    rw [get_value_eq_adjust, h1, hs,
      show s + 11 * 1 = s + 11 from by ring]
    by_cases hle : s + 11 ≤ 21
    · rw [adjustAces_of_le 1 _ hle, if_pos hle]
    · rw [adjustAces_one, if_pos (by omega), if_neg hle]
      omega
  · intro h c1 c2 hc h1 h2
    have hv1 : c1.get_value = 11 := by simp [Card.get_value, h1, Rank.value]
    have hv2 : c2.get_value = 11 := by simp [Card.get_value, h2, Rank.value]
    rw [Hand.get_value, hc]
    simp [List.filter_cons, h1, h2, hv1, hv2]
    decide

/-- C1 witness: a hand of one ace and a nine is worth 20, and a hand of
two aces is worth 12. -/
theorem hand_get_value_spec_witness :
    (Hand.mk [⟨Suit.spades, Rank.ace⟩, ⟨Suit.hearts, Rank.nine⟩]).get_value =
      (if 9 + 11 ≤ 21 then 9 + 11 else 9 + 1) ∧
    (Hand.mk [⟨Suit.spades, Rank.ace⟩, ⟨Suit.hearts, Rank.ace⟩]).get_value = 12 :=
  ⟨hand_get_value_spec.2.1 _ 9 (by decide) (by decide),
   hand_get_value_spec.2.2 _ _ _ rfl rfl rfl⟩

/-- C7: Hand.is_blackjack holds exactly when the hand has two cards and
value 21; a three-card hand such as ace, nine, ace is not blackjack. -/
theorem is_blackjack_iff :
    (∀ h : Hand, h.is_blackjack = true ↔
      (h.cards.length = 2 ∧ h.get_value = 21)) ∧
    (Hand.mk [⟨Suit.spades, Rank.ace⟩, ⟨Suit.spades, Rank.nine⟩,
      ⟨Suit.hearts, Rank.ace⟩]).is_blackjack = false := by
  constructor
  · intro h
    simp [Hand.is_blackjack]
  · decide

/-- C7 witness: the ace-king hand satisfies both sides of the
characterization. -/
theorem is_blackjack_iff_witness :
    (Hand.mk [⟨Suit.spades, Rank.ace⟩,
      ⟨Suit.hearts, Rank.king⟩]).is_blackjack = true :=
  (is_blackjack_iff.1
    (Hand.mk [⟨Suit.spades, Rank.ace⟩, ⟨Suit.hearts, Rank.king⟩])).mpr
    (by decide)

/-! Helper lemmas about the deck. -/

theorem reset_cards_length (shuffle : List Card → List Card)
    (hsh : ∀ l, (shuffle l).length = l.length) (d : Deck) :
    (d.reset shuffle).cards.length = d.num_decks * 52 := by
  rw [Deck.reset]
  simp [hsh]
  exact Or.inl (by decide)

theorem deal_card_some (shuffle : List Card → List Card)
    (hsh : ∀ l, (shuffle l).length = l.length) (d : Deck)
    (h1 : 1 ≤ d.num_decks) :
    ∃ c d', d.deal_card shuffle = some (c, d') ∧ d'.num_decks = d.num_decks := by
  rw [Deck.deal_card]
  set d1 := if d.cards.length < 10 then d.reset shuffle else d with hd1
  have hnd : d1.num_decks = d.num_decks := by
    rw [hd1]; split <;> rfl
  have hne : d1.cards ≠ [] := by
    have hlen : 1 ≤ d1.cards.length := by
      rw [hd1]
      split
      · rw [reset_cards_length shuffle hsh d]
        omega
      · omega
    intro hnil
    rw [hnil] at hlen
    simp at hlen
  refine ⟨d1.cards.getLast hne, ⟨d1.cards.dropLast, d1.num_decks⟩, ?_, hnd⟩
  simp [popLast, List.getLast?_eq_getLast d1.cards hne]

theorem dealMany_some (shuffle : List Card → List Card)
    (hsh : ∀ l, (shuffle l).length = l.length) (n : Nat) (d : Deck)
    (h1 : 1 ≤ d.num_decks) : ∃ d', dealMany shuffle n d = some d' := by
  induction n generalizing d with
  | zero => exact ⟨d, rfl⟩
  | succ n ih =>
    obtain ⟨c, d', hdeal, hnd⟩ := deal_card_some shuffle hsh d h1
    obtain ⟨d'', hmany⟩ := ih d' (hnd ▸ h1)
    exact ⟨d'', by simp [dealMany, hdeal, hmany]⟩

/-- C2: with at least one configured deck and a length-preserving
shuffle, a draw never pops an empty sequence: any number of successive
deal_card calls succeeds, and whenever fewer than 10 cards remain the
deal first rebuilds the shoe as num_decks full 52-card sets, shuffles,
and then removes and returns the last card of the rebuilt sequence.
Card counts are natural numbers, so the remaining count is ≥ 0. -/
theorem deal_card_safe (shuffle : List Card → List Card)
    (hsh : ∀ l, (shuffle l).length = l.length) (d : Deck)
    (h1 : 1 ≤ d.num_decks) :
    (∀ n, ∃ d', dealMany shuffle n d = some d') ∧
    (d.cards.length < 10 → ∃ c rest,
      (d.reset shuffle).cards = rest ++ [c] ∧
      d.deal_card shuffle = some (c, ⟨rest, d.num_decks⟩)) := by
  constructor
  · intro n
    exact dealMany_some shuffle hsh n d h1
  · intro hlt
    have hne : (d.reset shuffle).cards ≠ [] := by
      intro hnil
      have := reset_cards_length shuffle hsh d
      rw [hnil] at this
      simp at this
      omega
    refine ⟨(d.reset shuffle).cards.getLast hne, (d.reset shuffle).cards.dropLast,
      (List.dropLast_concat_getLast hne).symm, ?_⟩
    rw [Deck.deal_card]
    simp only [if_pos hlt]
    simp [popLast, List.getLast?_eq_getLast _ hne]
    rfl

/-- C2 witness: an empty one-deck shoe with the identity shuffle admits
three successive draws, and its first draw rebuilds the shoe first. -/
theorem deal_card_safe_witness :
    (∃ d', dealMany id 3 ⟨[], 1⟩ = some d') ∧
    (∃ c rest, ((Deck.mk [] 1).reset id).cards = rest ++ [c] ∧
      (Deck.mk [] 1).deal_card id = some (c, ⟨rest, 1⟩)) :=
  ⟨(deal_card_safe id (fun _ => rfl) ⟨[], 1⟩ (by decide)).1 3,
   (deal_card_safe id (fun _ => rfl) ⟨[], 1⟩ (by decide)).2 (by decide)⟩

/-! Settlement and the natural-blackjack check. -/

/-- C3: at non-blackjack settlement with balance B and debited bet X, a
player bust leaves B unchanged regardless of the dealer's hand; otherwise
a dealer bust or a strictly higher player value pays B + 2X; a strictly
lower player value leaves B; equal values pay back B + X. -/
theorem determine_winner_spec (s : GameState) :
    (s.player_hand.is_bust = true →
      (determine_winner s).player_balance = s.player_balance) ∧
    (s.player_hand.is_bust = false →
      (s.dealer_hand.is_bust = true ∨
        s.dealer_hand.get_value < s.player_hand.get_value) →
      (determine_winner s).player_balance =
        s.player_balance + s.current_bet * 2) ∧
    (s.player_hand.is_bust = false → s.dealer_hand.is_bust = false →
      s.player_hand.get_value < s.dealer_hand.get_value →
      (determine_winner s).player_balance = s.player_balance) ∧
    (s.player_hand.is_bust = false → s.dealer_hand.is_bust = false →
      s.player_hand.get_value = s.dealer_hand.get_value →
      (determine_winner s).player_balance = s.player_balance + s.current_bet) := by
  refine ⟨?_, ?_, ?_, ?_⟩
  · intro hp
    rw [determine_winner, if_pos hp]
  · intro hp hwin
    rw [determine_winner, if_neg (by simp [hp])]
    rcases hwin with hd | hgt
    · rw [if_pos hd]
    · have hd : s.dealer_hand.is_bust = false := by
        have hple : s.player_hand.get_value ≤ 21 := by
          have := hp
          simp [Hand.is_bust] at this
          omega
        simp [Hand.is_bust]
        omega
      rw [if_neg (by simp [hd]), if_pos hgt]
  · intro hp hd hlt
    rw [determine_winner, if_neg (by simp [hp]), if_neg (by simp [hd]),
      if_neg (by omega), if_pos hlt]
  · intro hp hd heq
    rw [determine_winner, if_neg (by simp [hp]), if_neg (by simp [hd]),
      if_neg (by omega), if_neg (by omega)]

/-- C3 witness: with balance 90 and bet 10, a player 19 against a dealer
18 pays 90 + 10 * 2. -/
theorem determine_winner_spec_witness :
    (determine_winner
      ⟨⟨[], 1⟩, 90, ⟨[⟨Suit.spades, Rank.king⟩, ⟨Suit.spades, Rank.nine⟩]⟩,
        ⟨[⟨Suit.hearts, Rank.king⟩, ⟨Suit.hearts, Rank.eight⟩]⟩, 10⟩).player_balance =
      90 + 10 * 2 :=
  (determine_winner_spec _).2.1 (by decide) (Or.inr (by decide))

/-- C4: the natural-blackjack check runs right after the initial deal and
before any player action: in the dealt state s1 (bet already debited),
both blackjacks refund the bet and the round ends; a player-only
blackjack pays 2.5 times the bet and the round ends; a dealer-only
blackjack leaves the balance and the round ends; with neither, play
continues with the player turn.  Each ending case holds for every list
of pending player actions. -/
theorem initial_blackjack_spec (shuffle : List Card → List Card)
    (bets : List (Option ℚ)) (actions : List Action) (fuel : Nat)
    (s : GameState) (X B' : ℚ) (s1 : GameState)
    (hbet : place_bet s.player_balance bets = some (X, B'))
    (hdeal : deal_initial_hands shuffle
      { s with player_balance := B', current_bet := X } = some s1) :
    (s1.player_hand.is_blackjack = true → s1.dealer_hand.is_blackjack = true →
      play_hand shuffle bets actions fuel s =
        some { s1 with player_balance := s1.player_balance + s1.current_bet }) ∧
    (s1.player_hand.is_blackjack = true → s1.dealer_hand.is_blackjack = false →
      play_hand shuffle bets actions fuel s =
        some { s1 with player_balance :=
          s1.player_balance + s1.current_bet * (5/2) }) ∧
    (s1.player_hand.is_blackjack = false → s1.dealer_hand.is_blackjack = true →
      play_hand shuffle bets actions fuel s = some s1) ∧
    (s1.player_hand.is_blackjack = false → s1.dealer_hand.is_blackjack = false →
      play_hand shuffle bets actions fuel s =
        (player_turn shuffle actions s1).bind (after_player shuffle fuel)) := by
  refine ⟨?_, ?_, ?_, ?_⟩ <;> intro hpb hdb <;>
    simp [play_hand, hbet, hdeal, check_initial_blackjack, hpb, hdb, Option.bind]
  cases player_turn shuffle actions s1 <;> rfl

/-- Concrete dealt-from state for the natural-blackjack witness: ten
filler cards below a seven, king, nine and ace at the top of the shoe. -/
def wDeckBJ : Deck :=
  ⟨List.replicate 10 (Card.mk Suit.hearts Rank.two) ++
    [⟨Suit.clubs, Rank.seven⟩, ⟨Suit.spades, Rank.king⟩,
     ⟨Suit.diamonds, Rank.nine⟩, ⟨Suit.spades, Rank.ace⟩], 1⟩

/-- Concrete start state for the natural-blackjack witness. -/
def wStateBJ : GameState := ⟨wDeckBJ, 100, ⟨[]⟩, ⟨[]⟩, 0⟩

/-- State after bet 10 and the initial deal from wStateBJ: the player
holds ace and king, the dealer nine and seven. -/
def wDealtBJ : GameState :=
  ⟨⟨List.replicate 10 (Card.mk Suit.hearts Rank.two), 1⟩, 100 - 10,
   ⟨[⟨Suit.spades, Rank.ace⟩, ⟨Suit.spades, Rank.king⟩]⟩,
   ⟨[⟨Suit.diamonds, Rank.nine⟩, ⟨Suit.clubs, Rank.seven⟩]⟩, 10⟩

/-- C4 witness: balance 100, bet 10, player dealt ace and king (natural
blackjack), dealer dealt nine and seven: the round ends at once with
balance (100 - 10) + 10 * (5 / 2). -/
theorem initial_blackjack_spec_witness :
    play_hand id [some 10] [] 17 wStateBJ =
      some { wDealtBJ with player_balance :=
        wDealtBJ.player_balance + wDealtBJ.current_bet * (5/2) } :=
  (initial_blackjack_spec id [some 10] [] 17 wStateBJ 10 (100 - 10) wDealtBJ
    rfl rfl).2.1 (by decide) (by decide)

/-! The player turn: double down and input rejection. -/

theorem place_bet_sound (B : ℚ) (bets : List (Option ℚ)) (X B2 : ℚ)
    (h : place_bet B bets = some (X, B2)) : 0 < X ∧ X ≤ B ∧ B2 = B - X := by
  induction bets with
  | nil => exact absurd h (by simp [place_bet])
  | cons b rest ih =>
    match b with
    | none => exact ih (by rw [place_bet] at h; exact h)
    | some x =>
      rw [place_bet] at h
      by_cases hx : x ≤ 0 ∨ B < x
      · exact ih (by rwa [if_pos hx] at h)
      · rw [if_neg hx] at h
        push_neg at hx
        injection h with h'
        injection h' with h1 h2
        subst h1
        subst h2
        exact ⟨hx.1, hx.2, rfl⟩

theorem player_turn_bust (shuffle : List Card → List Card)
    (acts : List Action) (s : GameState) (hb : s.player_hand.is_bust = true) :
    player_turn shuffle acts s = some s := by
  rw [player_turn.eq_def]
  dsimp only
  rw [if_pos hb]

/-- C5: a Double Down input is accepted exactly when the player's hand
has two cards and the balance covers the current bet: when accepted it
debits the bet, doubles the bet, adds exactly one card and ends the turn
at once, for every remaining input and regardless of whether the new
card busts the hand; when rejected the loop re-prompts with the state
unchanged. -/
theorem double_down_spec (shuffle : List Card → List Card) (s : GameState)
    (rest : List Action) :
    (s.player_hand.is_bust = false →
      s.player_hand.cards.length = 2 → s.current_bet ≤ s.player_balance →
      ∀ c d, s.deck.deal_card shuffle = some (c, d) →
      player_turn shuffle (Action.double :: rest) s =
        some { s with deck := d,
                      player_balance := s.player_balance - s.current_bet,
                      current_bet := s.current_bet * 2,
                      player_hand := s.player_hand.add_card c }) ∧
    (s.player_hand.is_bust = false →
      ¬(s.player_hand.cards.length = 2 ∧ s.current_bet ≤ s.player_balance) →
      player_turn shuffle (Action.double :: rest) s =
        player_turn shuffle rest s) := by
  constructor
  · intro hb h2 hbal c d hdeal
    rw [player_turn.eq_def]
    dsimp only
    rw [if_neg (by simp [hb]), if_pos (And.intro h2 hbal), hdeal]
  · intro hb hno
    rw [player_turn.eq_def]
    dsimp only
    rw [if_neg (by simp [hb]), if_neg hno]

/-- Concrete state for the double-down witness: two cards worth 12, bet
10, balance 90, a five on top of a 13-card shoe. -/
def wStateDD : GameState :=
  ⟨⟨List.replicate 12 (Card.mk Suit.hearts Rank.three) ++
      [⟨Suit.clubs, Rank.five⟩], 1⟩, 90,
    ⟨[⟨Suit.spades, Rank.ten⟩, ⟨Suit.hearts, Rank.two⟩]⟩,
    ⟨[⟨Suit.diamonds, Rank.nine⟩, ⟨Suit.clubs, Rank.seven⟩]⟩, 10⟩

/-- C5 witness: from wStateDD a double down draws the five, ends the
turn and leaves balance 90 - 10 with bet 10 * 2. -/
theorem double_down_spec_witness :
    player_turn id [Action.double] wStateDD =
      some { wStateDD with
        deck := ⟨List.replicate 12 (Card.mk Suit.hearts Rank.three), 1⟩,
        player_balance := wStateDD.player_balance - wStateDD.current_bet,
        current_bet := wStateDD.current_bet * 2,
        player_hand := wStateDD.player_hand.add_card ⟨Suit.clubs, Rank.five⟩ } :=
  (double_down_spec id wStateDD []).1 (by decide) (by decide) (by decide)
    ⟨Suit.clubs, Rank.five⟩
    ⟨List.replicate 12 (Card.mk Suit.hearts Rank.three), 1⟩ rfl

/-- C8: place_bet returns only after accepting a bet X with 0 < X that
does not exceed the balance, debiting exactly X; a non-numeric entry, an
out-of-range entry and an unrecognized action letter each re-prompt and
leave the balance, the bet and both hands unchanged. -/
theorem input_rejection_spec :
    (∀ (B : ℚ) (bets : List (Option ℚ)) (X B2 : ℚ),
      place_bet B bets = some (X, B2) → 0 < X ∧ X ≤ B ∧ B2 = B - X) ∧
    (∀ (B : ℚ) (rest : List (Option ℚ)),
      place_bet B (none :: rest) = place_bet B rest) ∧
    (∀ (B x : ℚ) (rest : List (Option ℚ)), x ≤ 0 ∨ B < x →
      place_bet B (some x :: rest) = place_bet B rest) ∧
    (∀ (shuffle : List Card → List Card) (s : GameState) (rest : List Action),
      player_turn shuffle (Action.other :: rest) s =
        player_turn shuffle rest s) := by
  refine ⟨place_bet_sound, ?_, ?_, ?_⟩
  · intro B rest
    rw [place_bet]
  · intro B x rest hx
    rw [place_bet, if_pos hx]
  · intro shuffle s rest
    by_cases hb : s.player_hand.is_bust = true
    · rw [player_turn_bust shuffle _ s hb, player_turn_bust shuffle rest s hb]
    · rw [player_turn.eq_def]
      dsimp only
      rw [if_neg hb]

/-- C8 witness: after rejecting a non-numeric entry, an entry of 0 and an
entry above the balance, place_bet accepts bet 10 from balance 100 and
debits it, with 0 < 10 and 10 at most 100. -/
theorem input_rejection_spec_witness :
    0 < (10 : ℚ) ∧ (10 : ℚ) ≤ 100 ∧ (100 - 10 : ℚ) = 100 - 10 :=
  input_rejection_spec.1 100 [none, some 0, some 101, some 10] 10 (100 - 10) rfl

/-! The dealer turn: stand threshold, skipping, and termination. -/

theorem dealer_turn_stand (shuffle : List Card → List Card) (fuel : Nat)
    (s : GameState) (hv : ¬s.dealer_hand.get_value < 17) :
    dealer_turn shuffle fuel s = some s := by
  cases fuel with
  | zero => rw [dealer_turn, if_neg hv]
  | succ f => rw [dealer_turn, if_neg hv]

theorem dealer_turn_step (shuffle : List Card → List Card) (f : Nat)
    (s : GameState) (c : Card) (d : Deck)
    (hv : s.dealer_hand.get_value < 17)
    (hdeal : s.deck.deal_card shuffle = some (c, d)) :
    dealer_turn shuffle (f + 1) s =
      dealer_turn shuffle f
        { s with deck := d, dealer_hand := s.dealer_hand.add_card c } := by
  rw [dealer_turn, if_pos hv, hdeal]

theorem dealer_turn_exit (shuffle : List Card → List Card) :
    ∀ (fuel : Nat) (s s' : GameState),
      dealer_turn shuffle fuel s = some s' →
      17 ≤ s'.dealer_hand.get_value := by
  intro fuel
  induction fuel with
  | zero =>
    intro s s' h
    rw [dealer_turn] at h
    by_cases hv : s.dealer_hand.get_value < 17
    · rw [if_pos hv] at h
      exact absurd h (by simp)
    · rw [if_neg hv] at h
      injection h with h
      subst h
      omega
  | succ f ih =>
    intro s s' h
    rw [dealer_turn] at h
    by_cases hv : s.dealer_hand.get_value < 17
    · rw [if_pos hv] at h
      cases hdeal : s.deck.deal_card shuffle with
      | none => rw [hdeal] at h; exact absurd h (by simp)
      | some p =>
        obtain ⟨c, d⟩ := p
        rw [hdeal] at h
        dsimp only at h
        exact ih _ _ h
    · rw [if_neg hv] at h
      injection h with h
      subst h
      omega

theorem dealer_turn_keeps (shuffle : List Card → List Card) :
    ∀ (fuel : Nat) (s s' : GameState),
      dealer_turn shuffle fuel s = some s' →
      s'.player_balance = s.player_balance ∧
        s'.current_bet = s.current_bet ∧ s'.player_hand = s.player_hand := by
  intro fuel
  induction fuel with
  | zero =>
    intro s s' h
    rw [dealer_turn] at h
    by_cases hv : s.dealer_hand.get_value < 17
    · rw [if_pos hv] at h
      exact absurd h (by simp)
    · rw [if_neg hv] at h
      injection h with h
      rw [h]
      exact ⟨rfl, rfl, rfl⟩
  | succ f ih =>
    intro s s' h
    rw [dealer_turn] at h
    by_cases hv : s.dealer_hand.get_value < 17
    · rw [if_pos hv] at h
      cases hdeal : s.deck.deal_card shuffle with
      | none => rw [hdeal] at h; exact absurd h (by simp)
      | some p =>
        obtain ⟨c, d⟩ := p
        rw [hdeal] at h
        dsimp only at h
        exact ih { s with deck := d, dealer_hand := s.dealer_hand.add_card c } s' h
    · rw [if_neg hv] at h
      injection h with h
      rw [h]
      exact ⟨rfl, rfl, rfl⟩

theorem dealer_turn_total (shuffle : List Card → List Card)
    (hsh : ∀ l, (shuffle l).length = l.length) :
    ∀ (n : Nat) (s : GameState) (fuel : Nat), 1 ≤ s.deck.num_decks →
      17 ≤ hardTotal s.dealer_hand + n → n ≤ fuel →
      ∃ s', dealer_turn shuffle fuel s = some s' ∧
        17 ≤ s'.dealer_hand.get_value := by
  intro n
  induction n with
  | zero =>
    intro s fuel h1 hht _
    have hv : 17 ≤ s.dealer_hand.get_value :=
      Nat.le_trans (by omega) (hardTotal_le_get_value s.dealer_hand)
    exact ⟨s, dealer_turn_stand shuffle fuel s (by omega), hv⟩
  | succ n ih =>
    intro s fuel h1 hht hf
    by_cases hv : s.dealer_hand.get_value < 17
    · obtain ⟨f, rfl⟩ : ∃ f, fuel = f + 1 := ⟨fuel - 1, by omega⟩
      obtain ⟨c, d, hdeal, hnd⟩ := deal_card_some shuffle hsh s.deck h1
      rw [dealer_turn_step shuffle f s c d hv hdeal]
      apply ih
      · show 1 ≤ d.num_decks
        omega
      · rw [hardTotal_add_card]
        have := one_le_hardValue c
        omega
      · omega
    · exact ⟨s, dealer_turn_stand shuffle fuel s hv, by omega⟩

/-- C6: when the player is already bust the dealer turn is skipped and
the round settles at once with the dealer hand untouched; the dealer
stands immediately on any value of 17 or more, soft 17 included; while
the value is below 17 the dealer draws exactly one card and loops; and
whenever the loop returns a state its dealer hand is worth at least
17. -/
theorem dealer_turn_spec (shuffle : List Card → List Card) (fuel : Nat) :
    (∀ s : GameState, s.player_hand.is_bust = true →
      after_player shuffle fuel s = some (determine_winner s)) ∧
    (∀ s : GameState, 17 ≤ s.dealer_hand.get_value →
      dealer_turn shuffle fuel s = some s) ∧
    (∀ (s : GameState) (c : Card) (d : Deck) (f : Nat),
      s.dealer_hand.get_value < 17 →
      s.deck.deal_card shuffle = some (c, d) →
      dealer_turn shuffle (f + 1) s =
        dealer_turn shuffle f
          { s with deck := d, dealer_hand := s.dealer_hand.add_card c }) ∧
    (∀ s s' : GameState, dealer_turn shuffle fuel s = some s' →
      17 ≤ s'.dealer_hand.get_value) := by
  refine ⟨?_, ?_, ?_, ?_⟩
  · intro s hb
    rw [after_player, if_pos hb]
    rfl
  · intro s hv
    exact dealer_turn_stand shuffle fuel s (by omega)
  · intro s c d f hv hdeal
    exact dealer_turn_step shuffle f s c d hv hdeal
  · exact dealer_turn_exit shuffle fuel

/-- C6 witness: a dealer holding ace and six (soft 17) stands without
drawing, a dealer holding ten and six with a king on the shoe draws it,
and a finished loop ends at 17 or more. -/
theorem dealer_turn_spec_witness :
    dealer_turn id 5
      ⟨⟨List.replicate 11 (Card.mk Suit.hearts Rank.two), 1⟩, 90, ⟨[]⟩,
        ⟨[⟨Suit.spades, Rank.ace⟩, ⟨Suit.clubs, Rank.six⟩]⟩, 10⟩ =
      some ⟨⟨List.replicate 11 (Card.mk Suit.hearts Rank.two), 1⟩, 90, ⟨[]⟩,
        ⟨[⟨Suit.spades, Rank.ace⟩, ⟨Suit.clubs, Rank.six⟩]⟩, 10⟩ :=
  (dealer_turn_spec id 5).2.1
    ⟨⟨List.replicate 11 (Card.mk Suit.hearts Rank.two), 1⟩, 90, ⟨[]⟩,
      ⟨[⟨Suit.spades, Rank.ace⟩, ⟨Suit.clubs, Rank.six⟩]⟩, 10⟩ (by decide)

/-- C10 counterexample: a dealer hand of ace and five is worth 16, below
the drawing bound, yet adding a king leaves the value at 16: a drawn
card does not always increase Hand.get_value by at least 1. -/
theorem dealer_draw_not_increasing :
    (Hand.mk [⟨Suit.spades, Rank.ace⟩, ⟨Suit.spades, Rank.five⟩]).get_value
        = 16 ∧
    ((Hand.mk [⟨Suit.spades, Rank.ace⟩,
        ⟨Suit.spades, Rank.five⟩]).add_card
          ⟨Suit.spades, Rank.king⟩).get_value = 16 := by
  decide

/-- C10 (amended): dealer_turn terminates for every deck state and
dealer hand: each drawn card increases the hand's hard total (every ace
counted as 1), a lower bound on Hand.get_value, by at least 1, so with a
drawable shoe the loop returns within any fuel bound of at least 17,
ending with value at least 17. -/
theorem dealer_turn_terminates (shuffle : List Card → List Card)
    (hsh : ∀ l, (shuffle l).length = l.length) :
    (∀ (h : Hand) (c : Card), hardTotal h + 1 ≤ hardTotal (h.add_card c)) ∧
    (∀ h : Hand, hardTotal h ≤ h.get_value) ∧
    (∀ (s : GameState) (fuel : Nat), 1 ≤ s.deck.num_decks → 17 ≤ fuel →
      ∃ s', dealer_turn shuffle fuel s = some s' ∧
        17 ≤ s'.dealer_hand.get_value) := by
  refine ⟨?_, hardTotal_le_get_value, ?_⟩
  · intro h c
    rw [hardTotal_add_card]
    have := one_le_hardValue c
    omega
  · intro s fuel h1 hf
    exact dealer_turn_total shuffle hsh 17 s fuel h1 (by omega) hf

/-- C10 witness: from an empty dealer hand and an empty one-deck shoe,
the dealer loop with fuel 17 returns a hand worth at least 17. -/
theorem dealer_turn_terminates_witness :
    ∃ s', dealer_turn id 17 ⟨⟨[], 1⟩, 90, ⟨[]⟩, ⟨[]⟩, 10⟩ = some s' ∧
      17 ≤ s'.dealer_hand.get_value :=
  (dealer_turn_terminates id (fun _ => rfl)).2.2
    ⟨⟨[], 1⟩, 90, ⟨[]⟩, ⟨[]⟩, 10⟩ 17 (by decide) (by decide)

/-! Non-negativity of the balance across all operations. -/

theorem player_turn_balance (shuffle : List Card → List Card) :
    ∀ (actions : List Action) (s s' : GameState),
      player_turn shuffle actions s = some s' →
      0 ≤ s.player_balance → 0 ≤ s.current_bet →
      0 ≤ s'.player_balance ∧ 0 ≤ s'.current_bet := by
  intro actions
  induction actions with
  | nil =>
    intro s s' h hb hx
    rw [player_turn.eq_def] at h
    dsimp only at h
    by_cases hbu : s.player_hand.is_bust = true
    · rw [if_pos hbu] at h
      injection h with h
      subst h
      exact ⟨hb, hx⟩
    · rw [if_neg hbu] at h
      exact absurd h (by simp)
  | cons a rest ih =>
    intro s s' h hb hx
    rw [player_turn.eq_def] at h
    dsimp only at h
    by_cases hbu : s.player_hand.is_bust = true
    · rw [if_pos hbu] at h
      injection h with h
      subst h
      exact ⟨hb, hx⟩
    · rw [if_neg hbu] at h
      cases a with
      | hit =>
        cases hdeal : s.deck.deal_card shuffle with
        | none => rw [hdeal] at h; exact absurd h (by simp)
        | some p =>
          obtain ⟨c, d⟩ := p
          rw [hdeal] at h
          dsimp only at h
          exact ih _ s' h hb hx
      | stand =>
        injection h with h
        subst h
        exact ⟨hb, hx⟩
      | double =>
        dsimp only at h
        by_cases hel : s.player_hand.cards.length = 2 ∧
            s.current_bet ≤ s.player_balance
        · rw [if_pos hel] at h
          cases hdeal : s.deck.deal_card shuffle with
          | none => rw [hdeal] at h; exact absurd h (by simp)
          | some p =>
            obtain ⟨c, d⟩ := p
            rw [hdeal] at h
            dsimp only at h
            injection h with h
            subst h
            constructor
            · show 0 ≤ s.player_balance - s.current_bet
              linarith [hel.2]
            · show 0 ≤ s.current_bet * 2
              linarith
        · rw [if_neg hel] at h
          exact ih s s' h hb hx
      | other =>
        exact ih s s' h hb hx

theorem check_initial_blackjack_balance (s : GameState)
    (hx : 0 ≤ s.current_bet) :
    s.player_balance ≤ ((check_initial_blackjack s).2).player_balance ∧
      ((check_initial_blackjack s).2).current_bet = s.current_bet := by
  rw [check_initial_blackjack]
  split_ifs
  · constructor
    · show s.player_balance ≤ s.player_balance + s.current_bet
      linarith
    · rfl
  · constructor
    · show s.player_balance ≤ s.player_balance + s.current_bet * (5/2)
      linarith
    · rfl
  · exact ⟨le_refl _, rfl⟩
  · exact ⟨le_refl _, rfl⟩

theorem determine_winner_balance (s : GameState) (hx : 0 ≤ s.current_bet) :
    s.player_balance ≤ (determine_winner s).player_balance := by
  rw [determine_winner]
  split_ifs
  all_goals first
    | exact le_refl _
    | (show s.player_balance ≤ s.player_balance + s.current_bet * 2
       linarith)
    | (show s.player_balance ≤ s.player_balance + s.current_bet
       linarith)

theorem after_player_balance (shuffle : List Card → List Card) (fuel : Nat)
    (s s' : GameState) (h : after_player shuffle fuel s = some s')
    (hb : 0 ≤ s.player_balance) (hx : 0 ≤ s.current_bet) :
    0 ≤ s'.player_balance := by
  rw [after_player] at h
  by_cases hbu : s.player_hand.is_bust = true
  · rw [if_pos hbu] at h
    simp only [Option.map_some'] at h
    injection h with h
    subst h
    exact le_trans hb (determine_winner_balance s hx)
  · rw [if_neg hbu] at h
    cases hdt : dealer_turn shuffle fuel s with
    | none => rw [hdt] at h; exact absurd h (by simp)
    | some s4 =>
      rw [hdt] at h
      simp only [Option.map_some'] at h
      injection h with h
      subst h
      obtain ⟨hbal, hbet, _⟩ := dealer_turn_keeps shuffle fuel s s4 hdt
      exact le_trans (hbal ▸ hb) (determine_winner_balance s4 (hbet ▸ hx))

theorem deal_initial_keeps (shuffle : List Card → List Card)
    (t s1 : GameState) (h : deal_initial_hands shuffle t = some s1) :
    s1.player_balance = t.player_balance ∧ s1.current_bet = t.current_bet := by
  rw [deal_initial_hands] at h
  cases h1 : t.deck.deal_card shuffle with
  | none => rw [h1] at h; exact absurd h (by simp)
  | some p1 =>
    obtain ⟨c1, d1⟩ := p1
    rw [h1] at h
    dsimp only at h
    cases h2 : d1.deal_card shuffle with
    | none => rw [h2] at h; exact absurd h (by simp)
    | some p2 =>
      obtain ⟨c2, d2⟩ := p2
      rw [h2] at h
      dsimp only at h
      cases h3 : d2.deal_card shuffle with
      | none => rw [h3] at h; exact absurd h (by simp)
      | some p3 =>
        obtain ⟨c3, d3⟩ := p3
        rw [h3] at h
        dsimp only at h
        cases h4 : d3.deal_card shuffle with
        | none => rw [h4] at h; exact absurd h (by simp)
        | some p4 =>
          obtain ⟨c4, d4⟩ := p4
          rw [h4] at h
          dsimp only at h
          injection h with h
          subst h
          exact ⟨rfl, rfl⟩

/-- C9: from a non-negative balance, every operation of the game keeps
player_balance non-negative: an accepted bet is positive and bounded by
the balance, so the debit leaves a non-negative balance; the player turn
(including its double-down debit, accepted only when the balance covers
the bet) preserves non-negativity of balance and bet; the
natural-blackjack check and the settlement only ever add to the balance;
and so a whole played hand preserves a non-negative balance. -/
theorem balance_nonneg_spec :
    (∀ (B : ℚ) (bets : List (Option ℚ)) (X B2 : ℚ),
      place_bet B bets = some (X, B2) → 0 ≤ B → 0 ≤ B2 ∧ 0 < X) ∧
    (∀ (shuffle : List Card → List Card) (actions : List Action)
      (s s' : GameState), player_turn shuffle actions s = some s' →
      0 ≤ s.player_balance → 0 ≤ s.current_bet →
      0 ≤ s'.player_balance ∧ 0 ≤ s'.current_bet) ∧
    (∀ s : GameState, 0 ≤ s.current_bet →
      s.player_balance ≤ ((check_initial_blackjack s).2).player_balance ∧
      s.player_balance ≤ (determine_winner s).player_balance) ∧
    (∀ (shuffle : List Card → List Card) (bets : List (Option ℚ))
      (actions : List Action) (fuel : Nat) (s s' : GameState),
      play_hand shuffle bets actions fuel s = some s' →
      0 ≤ s.player_balance → 0 ≤ s'.player_balance) := by
  refine ⟨?_, player_turn_balance, ?_, ?_⟩
  · intro B bets X B2 h hB
    obtain ⟨hx, hxB, hB2⟩ := place_bet_sound B bets X B2 h
    exact ⟨by rw [hB2]; linarith, hx⟩
  · intro s hx
    exact ⟨(check_initial_blackjack_balance s hx).1,
      determine_winner_balance s hx⟩
  · intro shuffle bets actions fuel s s' h hb
    rw [play_hand] at h
    cases hpb : place_bet s.player_balance bets with
    | none => rw [hpb] at h; exact absurd h (by simp)
    | some p =>
      obtain ⟨X, B2⟩ := p
      rw [hpb] at h
      dsimp only at h
      obtain ⟨hx, hxB, hB2⟩ := place_bet_sound _ _ _ _ hpb
      cases hdl : deal_initial_hands shuffle
          { s with player_balance := B2, current_bet := X } with
      | none => rw [hdl] at h; exact absurd h (by simp)
      | some s1 =>
        rw [hdl] at h
        dsimp only at h
        obtain ⟨hs1b, hs1x⟩ := deal_initial_keeps shuffle _ s1 hdl
        have hs1b' : 0 ≤ s1.player_balance := by
          rw [hs1b]
          show (0:ℚ) ≤ B2
          rw [hB2]
          linarith
        have hs1x' : 0 ≤ s1.current_bet := by
          rw [hs1x]
          show (0:ℚ) ≤ X
          linarith
        cases hck : check_initial_blackjack s1 with
        | mk done s2 =>
          rw [hck] at h
          dsimp only at h
          have hs2b : 0 ≤ s2.player_balance := by
            have := (check_initial_blackjack_balance s1 hs1x').1
            rw [hck] at this
            exact le_trans hs1b' this
          have hs2x : 0 ≤ s2.current_bet := by
            have := (check_initial_blackjack_balance s1 hs1x').2
            rw [hck] at this
            dsimp only at this
            rw [this]
            exact hs1x'
          cases done with
          | true =>
            rw [if_pos rfl] at h
            injection h with h
            subst h
            exact hs2b
          | false =>
            rw [if_neg (by simp)] at h
            cases hpt : player_turn shuffle actions s2 with
            | none => rw [hpt] at h; exact absurd h (by simp)
            | some s3 =>
              rw [hpt] at h
              obtain ⟨hs3b, hs3x⟩ :=
                player_turn_balance shuffle actions s2 s3 hpt hs2b hs2x
              exact after_player_balance shuffle fuel s3 s' h hs3b hs3x

/-- C9 witness: from balance 100, the accepted bet 10 is positive and the
debited balance 100 - 10 is still non-negative. -/
theorem balance_nonneg_spec_witness :
    0 ≤ (100 - 10 : ℚ) ∧ 0 < (10 : ℚ) :=
  balance_nonneg_spec.1 100 [some 10] 10 (100 - 10) rfl (by decide)

end BlackJack
